import Mathlib

/-!
# Verification of the JsonSerializer core (`JsonSerializer.h`)

A shallow embedding of the generic type-dispatch serialization engine and the
object-level `JsonSerializable` capability of the repository, together with
proofs about the behaviour its specification describes.

## Scope and modelling conventions

* The JSON value model (`QJsonValue` / `QJsonObject` / `QJsonArray`) is an
  external Qt capability; the spec (§2, §3) treats it as a collaborator with a
  fixed contract.  It is modelled from the spec: a tagged tree `JVal` whose
  `Object` is an ordered mapping of `String` to values with unique keys, where
  inserting an existing key replaces its value in place and inserting a new key
  appends it.
* JSON numbers are idealized as exact rationals (`Rat`); floating-point width,
  rounding and text formatting of doubles are not statable and are never
  exercised by the theorems below.
* Statically typed C++ data is deep-embedded: `JType` is the universe of
  property types the engine dispatches on (arithmetic → `tInt`, `QString` →
  `tStr`, `bool` → `tBool`, `QJsonValue` → `tJson`, the order-preserving
  sequence containers `QList`/`QVector`/`std::vector` → `tList`, the key-value
  containers `QMap`/`QHash`/`std::map` with `QString` keys → `tMap`, and
  declared `JsonSerializable` classes → `tClass`).  Key-value containers are
  modelled with `String` keys only: the decode line
  `ToJsonValue<K>::convert(it.key())` of `Serializer<QMap<K,V>>::fromJson`
  passes a `QString` where a `K` is expected, so only key types constructible
  from `QString` instantiate; the map value itself is modelled by its iteration
  sequence of key/value pairs.
* `JData` is the universe of runtime values of those types, and `wt t d` says
  `d` is a value of static type `t` (a C++ typing fact, always true for real
  data reaching the engine).  Mismatched `(t, d)` pairs cannot occur in the
  statically typed source; the total Lean functions return `JVal.jNull` there.
* Case-insensitive comparison (`QString::compare(a, b, Qt::CaseInsensitive)`)
  is modelled by ASCII case folding; every theorem below exercises it on ASCII
  names only.
-/

/-- The JSON value model.  Modelled from the spec: §3 defines `Value` as the
tagged union Null, Bool, Number, String, Array (ordered sequence), Object
(ordered mapping of String to Value with unique keys); the concrete type is
the external Qt `QJsonValue` and is not part of the repository. -/
inductive JVal where
  | jNull
  | jBool (b : Bool)
  | jNum (q : Rat)
  | jStr (s : String)
  | jArr (elems : List JVal)
  | jObj (entries : List (String × JVal))

/-- `QJsonValue::isObject`. -/
def JVal.isObject : JVal → Bool
  | .jObj _ => true
  | _ => false

/-- `QJsonValue::isArray`. -/
def JVal.isArray : JVal → Bool
  | .jArr _ => true
  | _ => false

/-- `QJsonValue::toObject`: the entry list when the value is an Object,
otherwise the empty Object. -/
def JVal.toObject : JVal → List (String × JVal)
  | .jObj es => es
  | _ => []

/-- Insert into an ordered association list with unique keys: replace the value
in place when the key is present, append otherwise.  Modelled from the spec:
this is the `insert` mutator of the external Value Object (`QJsonObject::insert`)
and equally the single-pair insertion of the key-value containers
(`QMap::insert` replaces the mapped value at an existing key; a duplicate key
never reaches `std::map::insert` because Object keys are unique). -/
def assocInsert {α : Type} : List (String × α) → String → α → List (String × α)
  | [], k, v => [(k, v)]
  | (k0, v0) :: rest, k, v =>
    if k0 = k then (k, v) :: rest else (k0, v0) :: assocInsert rest k v

/-- Build an ordered mapping by inserting the pairs of `l` left to right into
an initially empty mapping — the shape of every encoding loop of the source
(`for (...) obj.insert(key, value);`). -/
def assocBuild {α : Type} (l : List (String × α)) : List (String × α) :=
  l.foldl (fun acc p => assocInsert acc p.fst p.snd) []

/-- `QJsonObject::value(key)`: the value stored at the first (hence, with
unique keys, the only) entry whose key is exactly `key`; a missing key yields
a null-like value (never exercised: `fromJson` only looks up keys obtained
from the object itself). -/
def objValue (es : List (String × JVal)) (k : String) : JVal :=
  match es.find? (fun e => e.fst = k) with
  | some e => e.snd
  | none => .jNull

/-- ASCII lower-casing of one character (kernel-computable stand-in for the Qt
case folding; all names in this development are ASCII). -/
def lowerChar (c : Char) : Char :=
  if 'A' ≤ c ∧ c ≤ 'Z' then Char.ofNat (c.toNat + 32) else c

/-- `key.compare(propertyName, Qt::CaseInsensitive) == 0` of the source,
modelled as equality after ASCII case folding. -/
def ciEq (a b : String) : Bool :=
  a.data.map lowerChar == b.data.map lowerChar

/-- `QJsonValue::toString()`: the stored string when the value is a String,
otherwise the default (empty) string — this is the key conversion
`ToJsonValue<K>::convert(it.key()).toString()` used by the map encoders. -/
def jvalToString : JVal → String
  | .jStr s => s
  | _ => ""

/-- The universe of static types the type-dispatch engine (`Serializer<T>`)
resolves: `tInt` the arithmetic types (numbers idealized as integers stored in
rational JSON numbers), `tBool` `bool`, `tStr` `QString`, `tJson` `QJsonValue`
(the identity specialization of `part_003`), `tList` the order-preserving
sequence containers, `tMap` the `QString`-keyed key-value containers, `tClass`
a declared `JsonSerializable` class given by its ordered property descriptor
list (name, static type). -/
inductive JType where
  | tInt
  | tBool
  | tStr
  | tJson
  | tList (elem : JType)
  | tMap (val : JType)
  | tClass (props : List (String × JType))

/-- Runtime data of the corresponding static types: a class instance is the
list of its property values in declaration order, a key-value container its
iteration sequence of entries. -/
inductive JData where
  | dInt (n : Int)
  | dBool (b : Bool)
  | dStr (s : String)
  | dJson (v : JVal)
  | dList (elems : List JData)
  | dMap (entries : List (String × JData))
  | dObj (fields : List JData)

/-- Exact pairwise distinctness of a key list (the unique-keys invariant of a
key-value container and of the property names of a class — a duplicate
`JSON_PROPERTY` name is a duplicate C++ member and does not compile). -/
def distinctKeys : List String → Bool
  | [] => true
  | k :: ks => ks.all (fun m => !(m == k)) && distinctKeys ks

/-- Pairwise case-insensitive distinctness of a name list. -/
def ciDistinct : List String → Bool
  | [] => true
  | k :: ks => ks.all (fun m => !(ciEq m k)) && ciDistinct ks

mutual

/-- `d` is a value of static type `t` (the C++ typing relation), including the
container invariant that the iteration sequence of a key-value container has
pairwise distinct keys. -/
def wt : JType → JData → Bool
  | .tInt, .dInt _ => true
  | .tBool, .dBool _ => true
  | .tStr, .dStr _ => true
  | .tJson, .dJson _ => true
  | .tList t, .dList xs => wtList t xs
  | .tMap t, .dMap es => distinctKeys (es.map Prod.fst) && wtEntries t es
  | .tClass ps, .dObj fs => wtFields ps fs
  | _, _ => false

def wtList : JType → List JData → Bool
  | _, [] => true
  | t, x :: xs => wt t x && wtList t xs

def wtEntries : JType → List (String × JData) → Bool
  | _, [] => true
  | t, e :: es => wt t e.snd && wtEntries t es

def wtFields : List (String × JType) → List JData → Bool
  | [], [] => true
  | p :: ps, f :: fs => wt p.snd f && wtFields ps fs
  | _, _ => false

end

mutual

/-- The default-constructed value of a static type: `T result;` of
`Serializer<T>::fromJson` for class types, recursively.  Qt strings and the
containers default to empty; a raw arithmetic member is default-initialized in
C++ (indeterminate) and is modelled as `0` — no theorem below observes a
default arithmetic field. -/
def defaultData : JType → JData
  | .tInt => .dInt 0
  | .tBool => .dBool false
  | .tStr => .dStr ""
  | .tJson => .dJson .jNull
  | .tList _ => .dList []
  | .tMap _ => .dMap []
  | .tClass ps => .dObj (defaultFields ps)

def defaultFields : List (String × JType) → List JData
  | [] => []
  | p :: ps => defaultData p.snd :: defaultFields ps

end

/-- `qRound64`, the rounding QVariant applies when converting a JSON number
(a double) to an integer type: round half away from zero. -/
def qRound (q : Rat) : Int :=
  if q < 0 then Int.ceil (q - 1/2) else Int.floor (q + 1/2)

/-- `json.toVariant().value<T>()` for arithmetic `T`
(`Serializer<T>::fromJson`, primitive specialization): a Number converts by
rounding, a String by strict decimal parsing (0 on failure), a Bool to 0/1,
and null/Array/Object fall back to the default 0. -/
def jvalToVariantInt : JVal → Int
  | .jNum q => qRound q
  | .jStr s => s.toInt?.getD 0
  | .jBool b => if b then 1 else 0
  | _ => 0

/-- `json.toVariant().value<bool>()`: a Bool is itself, a Number is true iff
nonzero, a String is false exactly for the empty string, "0" and
case-insensitive "false", and null/Array/Object fall back to false. -/
def jvalToVariantBool : JVal → Bool
  | .jBool b => b
  | .jNum q => !(q == 0)
  | .jStr s => !(s == "" || s == "0" || ciEq s "false")
  | _ => false

/-- `json.toVariant().value<QString>()`: a String is itself, a Bool renders as
"true"/"false", a Number as its decimal text (floating-point formatting
idealized, never exercised below), and null/Array/Object fall back to the
default empty string. -/
def jvalToVariantString : JVal → String
  | .jStr s => s
  | .jBool b => if b then "true" else "false"
  | .jNum q => if q.den = 1 then toString q.num else toString q
  | _ => ""

mutual

/-- The encoder of the type-dispatch engine, `Serializer<T>::toJson` per static
type: primitives construct the matching Value; sequence containers map each
element into an Array in iteration order; key-value containers insert
`(ToJsonValue<K>::convert(key).toString(), Serializer<V>::toJson(value))` per
entry into an Object; a declared class delegates to the member `toJson()`,
which inserts `(property name, encoded property)` in declaration order;
`QJsonValue` properties pass through unchanged (`Serializer<QJsonValue>`). -/
def Serializer.toJson : JType → JData → JVal
  | .tInt, .dInt n => .jNum (n : Rat)
  | .tBool, .dBool b => .jBool b
  | .tStr, .dStr s => .jStr s
  | .tJson, .dJson v => v
  | .tList t, .dList xs => .jArr (encodeList t xs)
  | .tMap t, .dMap es => .jObj (assocBuild (encodeEntries t es))
  | .tClass ps, .dObj fs => .jObj (assocBuild (encodeFields ps fs))
  | _, _ => .jNull

/-- The element loop of the sequence encoders
(`for (item : container) array.append(Serializer<T>::toJson(item));`). -/
def encodeList : JType → List JData → List JVal
  | _, [] => []
  | t, x :: xs => Serializer.toJson t x :: encodeList t xs

/-- The entry loop of the map encoders: each entry becomes the pair
`(ToJsonValue<K>::convert(key).toString(), Serializer<V>::toJson(value))`
(for the `QString` keys that instantiate, the key converts to itself). -/
def encodeEntries : JType → List (String × JData) → List (String × JVal)
  | _, [] => []
  | t, e :: es => (jvalToString (.jStr e.fst), Serializer.toJson t e.snd) :: encodeEntries t es

/-- The property loop of the member `toJson()`: one `(name, encoded value)`
pair per declared property, in declaration order. -/
def encodeFields : List (String × JType) → List JData → List (String × JVal)
  | [], _ => []
  | _ :: _, [] => []
  | p :: ps, f :: fs => (p.fst, Serializer.toJson p.snd f) :: encodeFields ps fs

end

mutual

/-- The decoder of the type-dispatch engine, `Serializer<T>::fromJson` per static
type: primitives extract through the QVariant coercions; a sequence container
requires an Array (else stays empty) and appends decoded elements in Array
order; a key-value container requires an Object (else stays empty) and inserts
each entry with the key converted back through
`ToJsonValue<K>::convert(key).toVariant().value<K>()`; a declared class
default-constructs an instance and runs the member `fromJson(json.toObject())`
on it; `QJsonValue` passes through unchanged. -/
def Serializer.fromJson : JType → JVal → JData
  | .tInt, v => .dInt (jvalToVariantInt v)
  | .tBool, v => .dBool (jvalToVariantBool v)
  | .tStr, v => .dStr (jvalToVariantString v)
  | .tJson, v => .dJson v
  | .tList t, .jArr xs => .dList (decodeList t xs)
  | .tList _, _ => .dList []
  | .tMap t, .jObj es => .dMap (assocBuild (decodeEntries t es))
  | .tMap _, _ => .dMap []
  | .tClass ps, v => .dObj (fromJsonProps ps (defaultFields ps) (v.toObject))
termination_by t v => (sizeOf t, sizeOf v)
decreasing_by
  all_goals simp_wf
  all_goals apply Prod.Lex.left
  all_goals omega

/-- The element loop of the sequence decoders
(`for (item : array) result.append(Serializer<T>::fromJson(item));`). -/
def decodeList : JType → List JVal → List JData
  | _, [] => []
  | t, v :: vs => Serializer.fromJson t v :: decodeList t vs
termination_by t vs => (sizeOf t, sizeOf vs)
decreasing_by
  all_goals simp_wf
  all_goals apply Prod.Lex.right
  all_goals omega

/-- The entry loop of the map decoders: each Object entry decodes to
`(ToJsonValue<QString>::convert(key).toVariant().value<QString>(),
Serializer<V>::fromJson(value))` before insertion. -/
def decodeEntries : JType → List (String × JVal) → List (String × JData)
  | _, [] => []
  | t, (k, v) :: es =>
    (jvalToVariantString (.jStr k), Serializer.fromJson t v) :: decodeEntries t es
termination_by t es => (sizeOf t, sizeOf es)
decreasing_by
  all_goals simp_wf
  all_goals apply Prod.Lex.right
  all_goals omega

/-- The property loop of the member `fromJson`: for every declared property in
declaration order, scan the keys of the input Object in order for the first
case-insensitive match against the property name; on a match, decode
`json.value(key)` through the static type of the property and store it, otherwise
leave the current value of the property. -/
def fromJsonProps : List (String × JType) → List JData → List (String × JVal) → List JData
  | [], _, _ => []
  | _ :: _, [], _ => []
  | (n, t) :: ps, f :: fs, es =>
    (match (es.map Prod.fst).find? (fun k => ciEq k n) with
      | some k => Serializer.fromJson t (objValue es k)
      | none => f) :: fromJsonProps ps fs es
termination_by ps fs _ => (sizeOf ps, sizeOf fs)
decreasing_by
  all_goals simp_wf
  all_goals apply Prod.Lex.left
  all_goals omega

end

/-- One iteration of the property loop of the member `fromJson`, as a
standalone function (the head case of `fromJsonProps`). -/
def fromJsonProp (es : List (String × JVal)) (t : JType) (name : String) (cur : JData) : JData :=
  match (es.map Prod.fst).find? (fun k => ciEq k name) with
  | some k => Serializer.fromJson t (objValue es k)
  | none => cur

/-- The member `JsonSerializable::toJson()`: iterate the declared properties in
declaration order and insert `(name, Serializer<type>::toJson(field))` into a
fresh Object.  (`ps` is the Class Descriptor of the class, `fs` the
property values of the instance in declaration order; the skip of
non-`QJsonValue`-typed meta-properties is implicit, a Class Descriptor holding
exactly the `JSON_PROPERTY`-declared properties.) -/
def JsonSerializable.toJson (ps : List (String × JType)) (fs : List JData) :
    List (String × JVal) :=
  assocBuild (encodeFields ps fs)

/-- The member `JsonSerializable::fromJson(const QJsonValue&)`: a non-Object
input touches nothing; an Object input runs the property loop. -/
def JsonSerializable.fromJson (ps : List (String × JType)) (fs : List JData)
    (val : JVal) : List JData :=
  if val.isObject then fromJsonProps ps fs val.toObject else fs

/-- `QJsonDocument::fromJson(data).object()`.  Modelled from the spec: the
byte-level text decoding is external (§1, §6); §4.3 and §7 fix its contract —
a malformed document behaves as an empty document, and `object()` of a
document whose top level is not an Object (a null document or an array
document) is the empty Object.  `parse` stands for the external parser,
`none` meaning parse failure. -/
def docObject (r : Option JVal) : List (String × JVal) :=
  match r with
  | some (.jObj es) => es
  | _ => []

/-- The member `JsonSerializable::fromJson(const QByteArray&)`:
`fromJson(QJsonDocument::fromJson(data).object())`. -/
def JsonSerializable.fromJsonBytes (parse : String → Option JVal) (data : String)
    (ps : List (String × JType)) (fs : List JData) : List JData :=
  JsonSerializable.fromJson ps fs (.jObj (docObject (parse data)))

/-- Modelled from the spec: quoting by the external text codec (§6); escaping
follows the conventions of the codec and is never exercised below. -/
def renderString (s : String) : String := "\"" ++ s ++ "\""

/-- Modelled from the spec: decimal rendering of a JSON number by the external
codec (§6); non-integer formatting is idealized and never exercised below. -/
def ratText (q : Rat) : String :=
  if q.den = 1 then toString q.num else toString q

mutual

/-- Modelled from the spec: the external text codec (`QJsonDocument::toJson`),
emitting Array elements and Object entries in their stored order (§6: "object
key order in the emitted text matches" the order of the Object); whitespace and
indentation are abstracted away. -/
def encodeJsonText : JVal → String
  | .jNull => "null"
  | .jBool b => if b then "true" else "false"
  | .jNum q => ratText q
  | .jStr s => renderString s
  | .jArr xs => "[" ++ encodeTextList xs ++ "]"
  | .jObj es => "\x7b" ++ encodeTextEntries es ++ "\x7d"

def encodeTextList : List JVal → String
  | [] => ""
  | [x] => encodeJsonText x
  | x :: xs => encodeJsonText x ++ "," ++ encodeTextList xs

def encodeTextEntries : List (String × JVal) → String
  | [] => ""
  | [e] => renderString e.fst ++ ":" ++ encodeJsonText e.snd
  | e :: es => renderString e.fst ++ ":" ++ encodeJsonText e.snd ++ "," ++ encodeTextEntries es

end

/-- `JsonSerializable::toByteArray`:
`QJsonDocument(value.toObject()).toJson()`. -/
def JsonSerializable.toByteArray (value : JVal) : String :=
  encodeJsonText (.jObj value.toObject)

/-- The member `JsonSerializable::toRawJson()`: `toByteArray(toJson())`. -/
def JsonSerializable.toRawJson (ps : List (String × JType)) (fs : List JData) : String :=
  JsonSerializable.toByteArray (.jObj (JsonSerializable.toJson ps fs))

/-- `Serializer<QJsonValue>::toJson` of `part_003`: the identity. -/
def SerializerQJsonValue.toJson (value : JVal) : JVal := value

/-- `Serializer<QJsonValue>::fromJson` of `part_003`: the identity. -/
def SerializerQJsonValue.fromJson (json : JVal) : JVal := json

instance : Inhabited JType := ⟨.tInt⟩

instance : Inhabited JData := ⟨.dInt 0⟩

instance : Inhabited JVal := ⟨.jNull⟩

mutual

/-- Every class descriptor reachable from a static type has pairwise
case-insensitively distinct property names (the side condition under which the
case-insensitive key scan of the member `fromJson` finds each property its own
key back). -/
def ciOk : JType → Bool
  | .tInt => true
  | .tBool => true
  | .tStr => true
  | .tJson => true
  | .tList t => ciOk t
  | .tMap t => ciOk t
  | .tClass ps => ciDistinct (ps.map Prod.fst) && ciOkFields ps

def ciOkFields : List (String × JType) → Bool
  | [] => true
  | (_, t) :: ps => ciOk t && ciOkFields ps

end

/-! ## Basic lemmas about keys and case-insensitive comparison -/

theorem ciEq_iff (a b : String) :
    ciEq a b = true ↔ a.data.map lowerChar = b.data.map lowerChar := by
  simp [ciEq]

theorem ciEq_refl (a : String) : ciEq a a = true := by
  simp [ciEq]

theorem ciEq_comm (a b : String) : ciEq a b = ciEq b a := by
  rw [Bool.eq_iff_iff, ciEq_iff, ciEq_iff]
  exact eq_comm

theorem distinctKeys_iff (ks : List String) : distinctKeys ks = true ↔ ks.Nodup := by
  induction ks with
  | nil => simp [distinctKeys]
  | cons k ks ih =>
    simp only [distinctKeys, Bool.and_eq_true, List.all_eq_true, Bool.not_eq_true',
      beq_eq_false_iff_ne, ne_eq, ih, List.nodup_cons]
    constructor
    · rintro ⟨h1, h2⟩
      exact ⟨fun hk => h1 k hk rfl, h2⟩
    · rintro ⟨h1, h2⟩
      exact ⟨fun m hm hmk => h1 (hmk ▸ hm), h2⟩

theorem ciDistinct_iff (ks : List String) :
    ciDistinct ks = true ↔ ks.Pairwise (fun a b => ciEq a b = false) := by
  induction ks with
  | nil => simp [ciDistinct]
  | cons k ks ih =>
    simp only [ciDistinct, Bool.and_eq_true, List.all_eq_true, Bool.not_eq_true',
      ih, List.pairwise_cons]
    constructor
    · rintro ⟨h1, h2⟩
      refine ⟨fun b hb => ?_, h2⟩
      rw [ciEq_comm]
      exact h1 b hb
    · rintro ⟨h1, h2⟩
      refine ⟨fun m hm => ?_, h2⟩
      rw [ciEq_comm]
      exact h1 m hm

theorem ciDistinct_nodup (ks : List String) (h : ciDistinct ks = true) : ks.Nodup := by
  rw [ciDistinct_iff] at h
  refine h.imp ?_
  intro a b hab hEq
  subst hEq
  rw [ciEq_refl] at hab
  cases hab

theorem ciPairwise_unique (ks : List String)
    (h : ks.Pairwise (fun a b => ciEq a b = false))
    (n : String) (hn : n ∈ ks) (m : String) (hm : m ∈ ks) (hci : ciEq m n = true) : m = n := by
  by_contra hne
  have hsym : Symmetric (fun a b : String => ciEq a b = false) := by
    intro a b hab
    rw [ciEq_comm]
    exact hab
  have hfalse := h.forall hsym hm hn hne
  rw [hfalse] at hci
  cases hci

theorem find?_ciEq_self (ks : List String) (n : String) (hn : n ∈ ks)
    (huniq : ∀ m ∈ ks, ciEq m n = true → m = n) :
    ks.find? (fun k => ciEq k n) = some n := by
  induction ks with
  | nil => cases hn
  | cons k ks ih =>
    rcases hk : ciEq k n with _ | _
    · have hkn : k ≠ n := fun h => by
        rw [h, ciEq_refl] at hk
        cases hk
      have hn' : n ∈ ks := by
        rcases List.mem_cons.mp hn with h | h
        · exact absurd h.symm hkn
        · exact h
      rw [List.find?_cons_of_neg _ (by simp [hk])]
      exact ih hn' (fun m hm hci => huniq m (List.mem_cons_of_mem _ hm) hci)
    · have : k = n := huniq k (List.mem_cons_self _ _) hk
      subst this
      exact List.find?_cons_of_pos _ hk

theorem find?_append_first (p : String → Bool) (pre : List String) (k : String)
    (post : List String) (hpre : ∀ m ∈ pre, p m = false) (hk : p k = true) :
    (pre ++ k :: post).find? p = some k := by
  induction pre with
  | nil => simpa using List.find?_cons_of_pos (p := p) post hk
  | cons a pre ih =>
    have ha := hpre a (List.mem_cons_self _ _)
    rw [List.cons_append, List.find?_cons_of_neg _ (by simp [ha])]
    exact ih (fun m hm => hpre m (List.mem_cons_of_mem _ hm))

/-! ## Lemmas about `objValue`, `assocInsert` and `assocBuild` -/

theorem objValue_of_mem (es : List (String × JVal)) (k : String) (v : JVal)
    (hmem : (k, v) ∈ es) (hnd : (es.map Prod.fst).Nodup) : objValue es k = v := by
  induction es with
  | nil => cases hmem
  | cons e es ih =>
    rw [List.map_cons, List.nodup_cons] at hnd
    rcases List.mem_cons.mp hmem with h | h
    · rw [← h]
      simp [objValue, List.find?]
    · have hk : k ∈ es.map Prod.fst := List.mem_map.mpr ⟨(k, v), h, rfl⟩
      have hne : ¬(e.fst = k) := fun hEq => hnd.1 (hEq ▸ hk)
      have ih' := ih h hnd.2
      simpa [objValue, List.find?, hne] using ih'

theorem assocInsert_append {α : Type} (acc : List (String × α)) (k : String) (v : α)
    (h : ∀ e ∈ acc, e.fst ≠ k) : assocInsert acc k v = acc ++ [(k, v)] := by
  induction acc with
  | nil => rfl
  | cons e acc ih =>
    obtain ⟨k0, v0⟩ := e
    have hne : k0 ≠ k := h (k0, v0) (List.mem_cons_self _ _)
    simp only [assocInsert, if_neg hne, List.cons_append, List.cons.injEq, true_and]
    exact ih (fun e he => h e (List.mem_cons_of_mem _ he))

theorem assocBuild_aux {α : Type} (l : List (String × α)) :
    ∀ acc : List (String × α), ((acc ++ l).map Prod.fst).Nodup →
      l.foldl (fun acc p => assocInsert acc p.fst p.snd) acc = acc ++ l := by
  induction l with
  | nil => intro acc _; simp
  | cons p l ih =>
    intro acc h
    obtain ⟨k, v⟩ := p
    have hmap : (acc.map Prod.fst ++ k :: l.map Prod.fst).Nodup := by simpa using h
    have hk : ∀ e ∈ acc, e.fst ≠ k := by
      intro e he heq
      rcases List.nodup_append.mp hmap with ⟨_, _, hdisj⟩
      exact hdisj (List.mem_map.mpr ⟨e, he, heq⟩) (List.mem_cons_self _ _)
    rw [List.foldl_cons]
    rw [assocInsert_append acc k v hk]
    have hlist : (acc ++ [(k, v)]) ++ l = acc ++ (k, v) :: l := by simp
    rw [ih (acc ++ [(k, v)]) (by rw [hlist]; exact h), hlist]

theorem assocBuild_eq_self {α : Type} (l : List (String × α))
    (h : (l.map Prod.fst).Nodup) : assocBuild l = l := by
  simpa [assocBuild] using assocBuild_aux l [] (by simpa using h)

/-! ## Shape lemmas for the engine -/

theorem qRound_intCast (n : Int) : qRound ((n : Int) : Rat) = n := by
  unfold qRound
  by_cases h : ((n : Rat) < 0)
  · rw [if_pos h, sub_eq_add_neg, add_comm, Int.ceil_add_int]
    norm_num
  · rw [if_neg h, add_comm, Int.floor_add_int]
    norm_num

theorem encodeList_eq_map (t : JType) (xs : List JData) :
    encodeList t xs = xs.map (Serializer.toJson t) := by
  induction xs with
  | nil => simp [encodeList]
  | cons x xs ih => simp [encodeList, ih]

theorem encodeEntries_eq_map (t : JType) (es : List (String × JData)) :
    encodeEntries t es = es.map (fun e => (e.fst, Serializer.toJson t e.snd)) := by
  induction es with
  | nil => simp [encodeEntries]
  | cons e es ih => simp [encodeEntries, jvalToString, ih]

theorem decodeList_eq_map (t : JType) (vs : List JVal) :
    decodeList t vs = vs.map (Serializer.fromJson t) := by
  induction vs with
  | nil => simp [decodeList]
  | cons v vs ih => simp [decodeList, ih]

theorem decodeEntries_eq_map (t : JType) (es : List (String × JVal)) :
    decodeEntries t es = es.map (fun e => (e.fst, Serializer.fromJson t e.snd)) := by
  induction es with
  | nil => simp [decodeEntries]
  | cons e es ih =>
    obtain ⟨k, v⟩ := e
    simp [decodeEntries, jvalToVariantString, ih]

theorem encodeFields_eq_zipWith (ps : List (String × JType)) (fs : List JData) :
    encodeFields ps fs = List.zipWith (fun p f => (p.fst, Serializer.toJson p.snd f)) ps fs := by
  induction ps generalizing fs with
  | nil => simp [encodeFields]
  | cons p ps ih =>
    cases fs with
    | nil => simp [encodeFields]
    | cons f fs => simp [encodeFields, ih]

theorem encodeFields_keys (ps : List (String × JType)) (fs : List JData)
    (h : fs.length = ps.length) :
    (encodeFields ps fs).map Prod.fst = ps.map Prod.fst := by
  induction ps generalizing fs with
  | nil => simp [encodeFields]
  | cons p ps ih =>
    cases fs with
    | nil => simp at h
    | cons f fs =>
      simp only [List.length_cons, Nat.succ.injEq] at h
      simp [encodeFields, ih fs h]

theorem encodeFields_mem (ps : List (String × JType)) (fs : List JData)
    (p : String × JType) (f : JData) (h : (p, f) ∈ ps.zip fs) :
    (p.fst, Serializer.toJson p.snd f) ∈ encodeFields ps fs := by
  induction ps generalizing fs with
  | nil => simp at h
  | cons p0 ps ih =>
    cases fs with
    | nil => simp at h
    | cons f0 fs =>
      rw [List.zip_cons_cons, List.mem_cons] at h
      rcases h with h | h
      · rw [Prod.mk.injEq] at h
        rw [← h.1, ← h.2]
        exact List.mem_cons_self _ _
      · exact List.mem_cons_of_mem _ (ih fs h)

/-! ## Accessors for `wt`, `ciOk` and `defaultData` -/

theorem wtList_mem (t : JType) (xs : List JData) (h : wtList t xs = true) :
    ∀ x ∈ xs, wt t x = true := by
  induction xs with
  | nil => simp
  | cons x xs ih =>
    rw [wtList, Bool.and_eq_true] at h
    intro y hy
    rcases List.mem_cons.mp hy with hEq | hmem
    · rw [hEq]; exact h.1
    · exact ih h.2 y hmem

theorem wtEntries_mem (t : JType) (es : List (String × JData)) (h : wtEntries t es = true) :
    ∀ e ∈ es, wt t e.snd = true := by
  induction es with
  | nil => simp
  | cons e es ih =>
    rw [wtEntries, Bool.and_eq_true] at h
    intro e0 he0
    rcases List.mem_cons.mp he0 with hEq | hmem
    · rw [hEq]; exact h.1
    · exact ih h.2 e0 hmem

theorem wtFields_length (ps : List (String × JType)) (fs : List JData)
    (h : wtFields ps fs = true) : fs.length = ps.length := by
  induction ps generalizing fs with
  | nil =>
    cases fs with
    | nil => rfl
    | cons f fs => simp [wtFields] at h
  | cons p ps ih =>
    cases fs with
    | nil => simp [wtFields] at h
    | cons f fs =>
      rw [wtFields, Bool.and_eq_true] at h
      simpa using ih fs h.2

theorem wtFields_mem (ps : List (String × JType)) (fs : List JData)
    (h : wtFields ps fs = true) :
    ∀ p f, (p, f) ∈ ps.zip fs → wt p.snd f = true := by
  induction ps generalizing fs with
  | nil => simp
  | cons p0 ps ih =>
    cases fs with
    | nil => simp
    | cons f0 fs =>
      rw [wtFields, Bool.and_eq_true] at h
      intro p f hpf
      rw [List.zip_cons_cons, List.mem_cons] at hpf
      rcases hpf with hEq | hmem
      · rw [Prod.mk.injEq] at hEq
        rw [hEq.1, hEq.2]
        exact h.1
      · exact ih fs h.2 p f hmem

theorem ciOkFields_mem (ps : List (String × JType)) (h : ciOkFields ps = true) :
    ∀ p ∈ ps, ciOk p.snd = true := by
  induction ps with
  | nil => simp
  | cons p ps ih =>
    obtain ⟨n, t⟩ := p
    rw [ciOkFields, Bool.and_eq_true] at h
    intro p0 hp0
    rcases List.mem_cons.mp hp0 with hEq | hmem
    · rw [hEq]; exact h.1
    · exact ih h.2 p0 hmem

theorem defaultFields_length (ps : List (String × JType)) :
    (defaultFields ps).length = ps.length := by
  induction ps with
  | nil => simp [defaultFields]
  | cons p ps ih => simp [defaultFields, ih]

/-! ## Lemmas about the property loop of the member `fromJson` -/

theorem fromJsonProps_cons (n : String) (t : JType) (ps : List (String × JType))
    (f : JData) (fs : List JData) (es : List (String × JVal)) :
    fromJsonProps ((n, t) :: ps) (f :: fs) es =
      fromJsonProp es t n f :: fromJsonProps ps fs es := by
  simp [fromJsonProps, fromJsonProp]

theorem fromJsonProp_of_find_none (es : List (String × JVal)) (t : JType) (n : String)
    (cur : JData) (h : (es.map Prod.fst).find? (fun k => ciEq k n) = none) :
    fromJsonProp es t n cur = cur := by
  simp [fromJsonProp, h]

theorem fromJsonProp_of_find_some (es : List (String × JVal)) (t : JType) (n : String)
    (cur : JData) (k : String)
    (h : (es.map Prod.fst).find? (fun m => ciEq m n) = some k) :
    fromJsonProp es t n cur = Serializer.fromJson t (objValue es k) := by
  simp [fromJsonProp, h]

theorem fromJsonProps_empty_input (ps : List (String × JType)) (fs : List JData)
    (h : fs.length = ps.length) : fromJsonProps ps fs [] = fs := by
  induction ps generalizing fs with
  | nil =>
    cases fs with
    | nil => simp [fromJsonProps]
    | cons f fs => simp at h
  | cons p ps ih =>
    obtain ⟨n, t⟩ := p
    cases fs with
    | nil => simp at h
    | cons f fs =>
      simp only [List.length_cons, Nat.succ.injEq] at h
      rw [fromJsonProps_cons, fromJsonProp_of_find_none _ _ _ _ (by simp), ih fs h]

theorem fromJsonProps_getElem? (ps : List (String × JType)) (fs : List JData)
    (es : List (String × JVal)) (i : Nat) (p : String × JType) (f : JData)
    (hp : ps[i]? = some p) (hf : fs[i]? = some f) :
    (fromJsonProps ps fs es)[i]? = some (fromJsonProp es p.snd p.fst f) := by
  induction ps generalizing fs i with
  | nil => simp at hp
  | cons p0 ps ih =>
    obtain ⟨n, t⟩ := p0
    cases fs with
    | nil => simp at hf
    | cons f0 fs =>
      rw [fromJsonProps_cons]
      cases i with
      | zero =>
        simp only [List.getElem?_cons_zero, Option.some.injEq] at hp hf
        rw [← hp, ← hf]
        simp
      | succ i =>
        simp only [List.getElem?_cons_succ] at hp hf ⊢
        exact ih fs i hp hf

theorem fromJsonProps_extra_key (ps : List (String × JType)) (fs : List JData)
    (es : List (String × JVal)) (k0 : String) (v0 : JVal)
    (hk0 : ∀ p ∈ ps, ciEq k0 p.fst = false) :
    fromJsonProps ps fs (es ++ [(k0, v0)]) = fromJsonProps ps fs es := by
  induction ps generalizing fs with
  | nil => simp [fromJsonProps]
  | cons p0 ps ih =>
    obtain ⟨n, t⟩ := p0
    cases fs with
    | nil => simp [fromJsonProps]
    | cons f fs =>
      rw [fromJsonProps_cons, fromJsonProps_cons]
      have hn : ciEq k0 n = false := by simpa using hk0 (n, t) (List.mem_cons_self _ _)
      congr 1
      · unfold fromJsonProp
        rw [List.map_append, List.find?_append]
        cases hfind : (es.map Prod.fst).find? (fun k => ciEq k n) with
        | none => simp [hn]
        | some k =>
          simp only [Option.or_some]
          have hkmem : k ∈ es.map Prod.fst := List.mem_of_find?_eq_some hfind
          obtain ⟨e0, he0mem, he0⟩ := List.mem_map.mp hkmem
          have hex : ∃ e1 ∈ es, (fun e : String × JVal => (e.fst = k : Bool)) e1 = true := by
            exact ⟨e0, he0mem, by simp [he0]⟩
          have hsome : (es.find? (fun e : String × JVal => (e.fst = k : Bool))).isSome := by
            rw [List.find?_isSome]
            exact hex
          obtain ⟨e1, he1⟩ := Option.isSome_iff_exists.mp hsome
          unfold objValue
          rw [List.find?_append, he1]
          simp
      · exact ih fs (fun p hp => hk0 p (List.mem_cons_of_mem _ hp))

/-! ## The encode/decode round trip -/

theorem list_map_id_of_mem {α : Type} (xs : List α) (f : α → α)
    (h : ∀ x ∈ xs, f x = x) : xs.map f = xs := by
  induction xs with
  | nil => rfl
  | cons x xs ih =>
    rw [List.map_cons, h x (List.mem_cons_self _ _),
      ih (fun y hy => h y (List.mem_cons_of_mem _ hy))]

theorem fromJsonProps_roundtrip (es : List (String × JVal)) (ps : List (String × JType))
    (fs fs0 : List JData) (hlen : fs.length = ps.length) (hlen0 : fs0.length = ps.length)
    (h : ∀ p f, (p, f) ∈ ps.zip fs → ∀ cur, fromJsonProp es p.snd p.fst cur = f) :
    fromJsonProps ps fs0 es = fs := by
  induction ps generalizing fs fs0 with
  | nil =>
    cases fs with
    | nil =>
      cases fs0 with
      | nil => simp [fromJsonProps]
      | cons f0 fs0 => simp at hlen0
    | cons f fs => simp at hlen
  | cons p ps ih =>
    obtain ⟨n, t⟩ := p
    cases fs with
    | nil => simp at hlen
    | cons f fs =>
      cases fs0 with
      | nil => simp at hlen0
      | cons f0 fs0 =>
        simp only [List.length_cons, Nat.succ.injEq] at hlen hlen0
        rw [fromJsonProps_cons]
        have hhead := h (n, t) f (by rw [List.zip_cons_cons]; exact List.mem_cons_self _ _) f0
        rw [hhead]
        congr 1
        exact ih fs fs0 hlen hlen0
          (fun p f hpf cur =>
            h p f (by rw [List.zip_cons_cons]; exact List.mem_cons_of_mem _ hpf) cur)

theorem roundtrip_data : ∀ (t : JType) (d : JData), wt t d = true → ciOk t = true →
    Serializer.fromJson t (Serializer.toJson t d) = d := by
  suffices H : ∀ (N : Nat) (t : JType) (d : JData), sizeOf d < N → wt t d = true →
      ciOk t = true → Serializer.fromJson t (Serializer.toJson t d) = d by
    intro t d hw hc
    exact H (sizeOf d + 1) t d (Nat.lt_succ_self _) hw hc
  intro N
  induction N with
  | zero =>
    intro t d h
    omega
  | succ N ih =>
    intro t d hsz hw hc
    cases t <;> cases d <;> (try simp [wt] at hw)
    case tInt.dInt n =>
      simp [Serializer.toJson, Serializer.fromJson, jvalToVariantInt, qRound_intCast]
    case tBool.dBool b =>
      simp [Serializer.toJson, Serializer.fromJson, jvalToVariantBool]
    case tStr.dStr s =>
      simp [Serializer.toJson, Serializer.fromJson, jvalToVariantString]
    case tJson.dJson v =>
      simp [Serializer.toJson, Serializer.fromJson]
    case tList.dList t xs =>
      simp only [ciOk] at hc
      have hpt : ∀ x ∈ xs, Serializer.fromJson t (Serializer.toJson t x) = x := by
        intro x hx
        have hszx : sizeOf x < N := by
          have h1 := List.sizeOf_lt_of_mem hx
          have h2 : sizeOf (JData.dList xs) = 1 + sizeOf xs := by simp
          omega
        exact ih t x hszx (wtList_mem t xs hw x hx) hc
      simp only [Serializer.toJson, Serializer.fromJson]
      rw [encodeList_eq_map, decodeList_eq_map, List.map_map]
      rw [list_map_id_of_mem xs (Serializer.fromJson t ∘ Serializer.toJson t)
        (fun x hx => hpt x hx)]
    case tMap.dMap t es =>
      simp only [ciOk] at hc
      have hnd : (es.map Prod.fst).Nodup := (distinctKeys_iff _).mp hw.1
      have hpt : ∀ e ∈ es, Serializer.fromJson t (Serializer.toJson t e.snd) = e.snd := by
        intro e he
        have hsze : sizeOf e.snd < N := by
          have h1 := List.sizeOf_lt_of_mem he
          have h2 : sizeOf (JData.dMap es) = 1 + sizeOf es := by simp
          obtain ⟨a, b⟩ := e
          have h3 : sizeOf ((a, b) : String × JData) = 1 + sizeOf a + sizeOf b := by simp
          simp only at h3 ⊢
          omega
        exact ih t e.snd hsze (wtEntries_mem t es hw.2 e he) hc
      simp only [Serializer.toJson, Serializer.fromJson]
      rw [encodeEntries_eq_map]
      have hkeys : ((es.map fun e => (e.fst, Serializer.toJson t e.snd)).map Prod.fst) =
          es.map Prod.fst := by
        rw [List.map_map]
        rfl
      rw [assocBuild_eq_self (es.map fun e => (e.fst, Serializer.toJson t e.snd))
        (by rw [hkeys]; exact hnd)]
      rw [decodeEntries_eq_map, List.map_map]
      have hmapid : es.map ((fun e : String × JVal => (e.fst, Serializer.fromJson t e.snd)) ∘
          fun e : String × JData => (e.fst, Serializer.toJson t e.snd)) = es := by
        refine list_map_id_of_mem es _ (fun e he => ?_)
        simp only [Function.comp]
        rw [hpt e he]
      rw [hmapid]
      rw [assocBuild_eq_self _ hnd]
    case tClass.dObj ps fs =>
      simp only [ciOk, Bool.and_eq_true] at hc
      have hlen : fs.length = ps.length := wtFields_length ps fs hw
      have hnames : (ps.map Prod.fst).Nodup := ciDistinct_nodup _ hc.1
      have hkeys := encodeFields_keys ps fs hlen
      have hnd0 : ((encodeFields ps fs).map Prod.fst).Nodup := by
        rw [hkeys]
        exact hnames
      simp only [Serializer.toJson, Serializer.fromJson]
      rw [assocBuild_eq_self _ hnd0]
      have htoObj : (JVal.jObj (encodeFields ps fs)).toObject = encodeFields ps fs := rfl
      rw [htoObj]
      have hprops : fromJsonProps ps (defaultFields ps) (encodeFields ps fs) = fs := by
        refine fromJsonProps_roundtrip _ ps fs (defaultFields ps) hlen
          (defaultFields_length ps) ?_
        intro p f hpf cur
        have hmem : p ∈ ps ∧ f ∈ fs := List.of_mem_zip hpf
        have hfind : ((encodeFields ps fs).map Prod.fst).find? (fun k => ciEq k p.fst) =
            some p.fst := by
          rw [hkeys]
          refine find?_ciEq_self _ _ (List.mem_map.mpr ⟨p, hmem.1, rfl⟩) ?_
          intro m hm hci
          exact ciPairwise_unique _ ((ciDistinct_iff _).mp hc.1) p.fst
            (List.mem_map.mpr ⟨p, hmem.1, rfl⟩) m hm hci
        rw [fromJsonProp_of_find_some _ _ _ _ _ hfind]
        rw [objValue_of_mem _ _ _ (encodeFields_mem ps fs p f hpf) hnd0]
        have hszf : sizeOf f < N := by
          have h1 := List.sizeOf_lt_of_mem hmem.2
          have h2 : sizeOf (JData.dObj fs) = 1 + sizeOf fs := by simp
          omega
        exact ih p.snd f hszf (wtFields_mem ps fs hw p f hpf)
          (ciOkFields_mem ps hc.2 p hmem.1)
      rw [hprops]

/-! ## The engine dispatch for declared classes delegates to the member functions -/

theorem serializer_class_toJson_eq_member (ps : List (String × JType)) (fs : List JData) :
    Serializer.toJson (.tClass ps) (.dObj fs) = .jObj (JsonSerializable.toJson ps fs) := rfl

theorem serializer_class_fromJson_eq_member (ps : List (String × JType)) (v : JVal) :
    Serializer.fromJson (.tClass ps) v =
      .dObj (JsonSerializable.fromJson ps (defaultFields ps) (.jObj v.toObject)) := by
  simp [Serializer.fromJson, JsonSerializable.fromJson, JVal.isObject, JVal.toObject]

/-! ## Claim theorems -/

/-- C9: the `Serializer<QJsonValue>` specialization is the identity in both
directions — `toJson(v) = v` and `fromJson(v) = v` for every `QJsonValue v` —
so a property declared with static type `QJsonValue` round-trips to an
identical value with no coercion or degradation. -/
theorem c9_qjsonvalue_identity (v : JVal) :
    SerializerQJsonValue.toJson v = v ∧
    SerializerQJsonValue.fromJson v = v ∧
    SerializerQJsonValue.fromJson (SerializerQJsonValue.toJson v) = v ∧
    Serializer.fromJson .tJson (Serializer.toJson .tJson (.dJson v)) = .dJson v := by
  refine ⟨rfl, rfl, rfl, ?_⟩
  simp [Serializer.toJson, Serializer.fromJson]

/-- C7: for every serializable object and every input Value that is not an
Object (null, boolean, number, string, or array), the member `fromJson`
touches no property: every property equals its value before the call. -/
theorem c7_non_object_noop (ps : List (String × JType)) (fs : List JData) (v : JVal)
    (h : v.isObject = false) : JsonSerializable.fromJson ps fs v = fs := by
  simp [JsonSerializable.fromJson, h]

/-- Witness for C7: decoding an Array input into a one-property object leaves
the property at its prior value. -/
theorem c7_witness :
    JsonSerializable.fromJson [("name", .tStr)] [.dStr "x"] (.jArr [.jNum 1]) =
      [.dStr "x"] :=
  c7_non_object_noop [("name", .tStr)] [.dStr "x"] (.jArr [.jNum 1]) rfl

/-- C8: for every byte sequence that fails to parse as a document, the byte
overload of `fromJson` treats the input as an empty Object and proceeds as the
Value overload would, so no property changes and no error is raised. -/
theorem c8_parse_failure_noop (parse : String → Option JVal) (data : String)
    (ps : List (String × JType)) (fs : List JData)
    (hlen : fs.length = ps.length) (h : parse data = none) :
    JsonSerializable.fromJsonBytes parse data ps fs = fs := by
  unfold JsonSerializable.fromJsonBytes docObject
  rw [h]
  simp [JsonSerializable.fromJson, JVal.isObject, JVal.toObject,
    fromJsonProps_empty_input ps fs hlen]

/-- Witness for C8: a parser failing on the input leaves a one-property object
unchanged. -/
theorem c8_witness :
    JsonSerializable.fromJsonBytes (fun _ => none) "not json" [("name", .tStr)]
      [.dStr "x"] = [.dStr "x"] :=
  c8_parse_failure_noop (fun _ => none) "not json" [("name", .tStr)] [.dStr "x"] rfl rfl

/-- C10: bytes that parse successfully to a document whose top level is a JSON
array (not an object) leave every property unchanged: the `object()` accessor
of the document yields an empty Object, which is processed as a no-op. -/
theorem c10_array_document_noop (parse : String → Option JVal) (data : String)
    (ps : List (String × JType)) (fs : List JData) (xs : List JVal)
    (hlen : fs.length = ps.length) (h : parse data = some (.jArr xs)) :
    JsonSerializable.fromJsonBytes parse data ps fs = fs := by
  unfold JsonSerializable.fromJsonBytes docObject
  rw [h]
  simp [JsonSerializable.fromJson, JVal.isObject, JVal.toObject,
    fromJsonProps_empty_input ps fs hlen]

/-- Witness for C10: a top-level array document leaves a one-property object
unchanged. -/
theorem c10_witness :
    JsonSerializable.fromJsonBytes (fun _ => some (.jArr [.jStr "x"])) "[\"x\"]"
      [("name", .tStr)] [.dStr "keep"] = [.dStr "keep"] :=
  c10_array_document_noop (fun _ => some (.jArr [.jStr "x"])) "[\"x\"]"
    [("name", .tStr)] [.dStr "keep"] [.jStr "x"] rfl rfl

/-- C6: for every sequence-container element type and every Value `v` that is
not an Array, decoding `v` yields an empty container without raising any
error, and decoding an Array appends each decoded element in Array order. -/
theorem c6_sequence_decode (t : JType) (v : JVal) (xs : List JVal)
    (h : v.isArray = false) :
    Serializer.fromJson (.tList t) v = .dList [] ∧
    Serializer.fromJson (.tList t) (.jArr xs) =
      .dList (xs.map (Serializer.fromJson t)) := by
  constructor
  · cases v with
    | jNull => simp [Serializer.fromJson]
    | jBool b => simp [Serializer.fromJson]
    | jNum q => simp [Serializer.fromJson]
    | jStr s => simp [Serializer.fromJson]
    | jArr ys => simp [JVal.isArray] at h
    | jObj es => simp [Serializer.fromJson]
  · simp only [Serializer.fromJson]
    rw [decodeList_eq_map]

/-- Witness for C6: a null input decodes to the empty sequence, and an Array
of two strings decodes elementwise in order. -/
theorem c6_witness :
    Serializer.fromJson (.tList .tStr) .jNull = .dList [] ∧
    Serializer.fromJson (.tList .tStr) (.jArr [.jStr "a", .jStr "b"]) =
      .dList [.dStr "a", .dStr "b"] := by
  have h := c6_sequence_decode .tStr .jNull [.jStr "a", .jStr "b"] rfl
  refine ⟨h.1, ?_⟩
  rw [h.2]
  simp [Serializer.fromJson, jvalToVariantString]

/-- C2: for every serializable object, the member `toJson` emits the keys of
the result Object exactly in the declaration order of the class properties
(given the class invariant that property names are distinct), and — since
`toJson` is a function of the current property values alone — this holds
regardless of the order in which the properties were set; the declaration
order is also the key order of the emitted encoded text (`toRawJson`). -/
theorem c2_declaration_order (ps : List (String × JType)) (fs : List JData)
    (hnd : distinctKeys (ps.map Prod.fst) = true) (hlen : fs.length = ps.length) :
    (JsonSerializable.toJson ps fs).map Prod.fst = ps.map Prod.fst ∧
    JsonSerializable.toRawJson ps fs =
      "\x7b" ++ encodeTextEntries
        (List.zipWith (fun p f => (p.fst, Serializer.toJson p.snd f)) ps fs) ++ "\x7d" := by
  have hb : assocBuild (encodeFields ps fs) = encodeFields ps fs :=
    assocBuild_eq_self _
      (by rw [encodeFields_keys ps fs hlen]; exact (distinctKeys_iff _).mp hnd)
  constructor
  · rw [JsonSerializable.toJson, hb, encodeFields_keys ps fs hlen]
  · rw [JsonSerializable.toRawJson, JsonSerializable.toByteArray, JsonSerializable.toJson, hb]
    simp only [JVal.toObject]
    simp only [encodeJsonText]
    rw [encodeFields_eq_zipWith]

/-- Witness for C2: a two-property object emits keys `name`, `flag` in
declaration order, and its encoded text lists them in that order. -/
theorem c2_witness :
    distinctKeys (["name", "flag"] : List String) = true ∧
    (JsonSerializable.toJson [("name", .tStr), ("flag", .tBool)]
        [.dStr "A", .dBool true]).map Prod.fst = ["name", "flag"] ∧
    JsonSerializable.toRawJson [("name", .tStr), ("flag", .tBool)]
        [.dStr "A", .dBool true] = "\x7b\"name\":\"A\",\"flag\":true\x7d" := by
  have h := c2_declaration_order [("name", .tStr), ("flag", .tBool)]
    [.dStr "A", .dBool true] (by decide) rfl
  refine ⟨by decide, ?_, ?_⟩
  · rw [h.1]
    decide
  · rw [h.2]
    decide

/-- Counterexample for C3 as stated: a property whose matching input value is
malformed (here a `QString` property receiving an Array) does NOT retain its
pre-call value — the decode-shim coerces the Array to the default empty
string and overwrites the prior value "hello". -/
theorem c3_counterexample :
    JsonSerializable.fromJson [("name", .tStr)] [.dStr "hello"]
        (.jObj [("name", .jArr [])]) = [.dStr ""] ∧
    JsonSerializable.fromJson [("name", .tStr)] [.dStr "hello"]
        (.jObj [("name", .jArr [])]) ≠ [.dStr "hello"] := by
  have h : JsonSerializable.fromJson [("name", .tStr)] [.dStr "hello"]
      (.jObj [("name", .jArr [])]) = [.dStr ""] := by
    simp [JsonSerializable.fromJson, JVal.isObject, JVal.toObject, fromJsonProps,
      Serializer.fromJson, jvalToVariantString, List.find?, objValue, ciEq_refl]
  refine ⟨h, ?_⟩
  rw [h]
  simp

/-- C3 (amended): object-level decoding never signals an error; every property
for which no case-insensitively matching input key exists retains its pre-call
value, and an extra input key matching no declared property alters no
property.  (A property whose matching key carries a malformed value is
overwritten with the coerced/default decode of that value — see the
counterexample — so the retention part of C3 holds only for the no-matching-key
case.) -/
theorem c3_tolerant_decode (ps : List (String × JType)) (fs : List JData)
    (es : List (String × JVal)) :
    (∀ (i : Nat) (p : String × JType) (f : JData), ps[i]? = some p → fs[i]? = some f →
      (es.map Prod.fst).find? (fun k => ciEq k p.fst) = none →
      (JsonSerializable.fromJson ps fs (.jObj es))[i]? = some f) ∧
    (∀ (k : String) (v : JVal), (∀ p ∈ ps, ciEq k p.fst = false) →
      JsonSerializable.fromJson ps fs (.jObj (es ++ [(k, v)])) =
        JsonSerializable.fromJson ps fs (.jObj es)) := by
  constructor
  · intro i p f hp hf hnone
    simp only [JsonSerializable.fromJson, JVal.isObject, JVal.toObject, if_true]
    rw [fromJsonProps_getElem? ps fs es i p f hp hf,
      fromJsonProp_of_find_none _ _ _ _ hnone]
  · intro k v hk
    simp only [JsonSerializable.fromJson, JVal.isObject, JVal.toObject, if_true]
    exact fromJsonProps_extra_key ps fs es k v hk

/-- Witness for C3 (amended): with properties `name`, `flag` and an input
Object carrying only `flag`, the unmatched property `name` keeps its value,
and appending an unmatched extra key changes nothing. -/
theorem c3_witness :
    (JsonSerializable.fromJson [("name", .tStr), ("flag", .tBool)]
        [.dStr "x", .dBool true] (.jObj [("flag", .jBool false)]))[0]? =
      some (JData.dStr "x") ∧
    JsonSerializable.fromJson [("name", .tStr), ("flag", .tBool)]
        [.dStr "x", .dBool true] (.jObj ([("flag", .jBool false)] ++ [("extra", .jNull)])) =
      JsonSerializable.fromJson [("name", .tStr), ("flag", .tBool)]
        [.dStr "x", .dBool true] (.jObj [("flag", .jBool false)]) := by
  have h := c3_tolerant_decode [("name", .tStr), ("flag", .tBool)]
    [.dStr "x", .dBool true] [("flag", .jBool false)]
  constructor
  · exact h.1 0 ("name", .tStr) (.dStr "x") rfl rfl (by decide)
  · exact h.2 "extra" .jNull (by decide)

/-- C4: during the member `fromJson`, input Object keys are matched against
declared property names case-insensitively, and when several input keys
case-insensitively match one property name, the first match found while
scanning the keys of the input Object (in the order the Object stores them)
wins: the property receives the decode of that first matching value. -/
theorem c4_case_insensitive_first_match (ps : List (String × JType)) (fs : List JData)
    (es pre post : List (String × JVal)) (k : String) (v : JVal) (i : Nat)
    (p : String × JType) (f : JData)
    (hp : ps[i]? = some p) (hf : fs[i]? = some f)
    (hes : es = pre ++ (k, v) :: post)
    (hnd : (es.map Prod.fst).Nodup)
    (hpre : ∀ e ∈ pre, ciEq e.fst p.fst = false)
    (hk : ciEq k p.fst = true) :
    (JsonSerializable.fromJson ps fs (.jObj es))[i]? =
      some (Serializer.fromJson p.snd v) := by
  subst hes
  simp only [JsonSerializable.fromJson, JVal.isObject, JVal.toObject, if_true]
  rw [fromJsonProps_getElem? _ _ _ i p f hp hf]
  have hfind : (((pre ++ (k, v) :: post)).map Prod.fst).find? (fun m => ciEq m p.fst) =
      some k := by
    rw [List.map_append, List.map_cons]
    refine find?_append_first _ (pre.map Prod.fst) k (post.map Prod.fst) ?_ hk
    intro m hm
    obtain ⟨e, he, hEq⟩ := List.mem_map.mp hm
    rw [← hEq]
    exact hpre e he
  rw [fromJsonProp_of_find_some _ _ _ _ _ hfind]
  have hov : objValue (pre ++ (k, v) :: post) k = v :=
    objValue_of_mem _ _ _ (List.mem_append.mpr (Or.inr (List.mem_cons_self _ _))) hnd
  rw [hov]

/-- Witness for C4: an input key `NAME` populates a property declared `name`;
with both `NAME` and `name` present, the first key in the Object wins. -/
theorem c4_witness :
    (JsonSerializable.fromJson [("name", .tStr)] [.dStr ""]
        (.jObj [("NAME", .jStr "first"), ("name", .jStr "second")]))[0]? =
      some (JData.dStr "first") := by
  have h := c4_case_insensitive_first_match [("name", .tStr)] [.dStr ""]
    [("NAME", .jStr "first"), ("name", .jStr "second")] []
    [("name", .jStr "second")] "NAME" (.jStr "first") 0 ("name", .tStr) (.dStr "")
    rfl rfl rfl (by decide) (by simp) (by decide)
  rw [h]
  simp [Serializer.fromJson, jvalToVariantString]

/-- Counterexample for C5 as stated: the empty string is a valid `QString` map
key, and it converts to the empty String key of the result Object, so not
every key of a string-coercible key type maps to a non-empty String. -/
theorem c5_counterexample :
    Serializer.toJson (.tMap .tStr) (.dMap [("", .dStr "x")]) =
      .jObj [("", .jStr "x")] ∧
    "" ∈ (Serializer.toJson (.tMap .tStr) (.dMap [("", .dStr "x")])).toObject.map
      Prod.fst := by
  refine ⟨rfl, ?_⟩
  rw [show Serializer.toJson (.tMap .tStr) (.dMap [("", .dStr "x")]) =
    .jObj [("", .jStr "x")] from rfl]
  simp [JVal.toObject]

/-- C5 (amended): encoding a key-value container converts each key through
`ToJsonValue<K>::convert(key).toString()` — which for the `QString` keys that
instantiate both serializer directions is the key itself, possibly empty — and
each mapped value through the Serializer of the value type, producing a Value
Object whose keys are exactly those converted strings in iteration order; as
the conversion is injective on distinct String keys, the Object has one entry
per container entry. -/
theorem c5_map_encode (t : JType) (es : List (String × JData))
    (hnd : distinctKeys (es.map Prod.fst) = true) :
    Serializer.toJson (.tMap t) (.dMap es) =
      .jObj (es.map (fun e => (jvalToString (.jStr e.fst), Serializer.toJson t e.snd))) ∧
    (Serializer.toJson (.tMap t) (.dMap es)).toObject.map Prod.fst =
      es.map Prod.fst ∧
    (Serializer.toJson (.tMap t) (.dMap es)).toObject.length = es.length := by
  have hkeys : ((es.map fun e => (e.fst, Serializer.toJson t e.snd)).map Prod.fst) =
      es.map Prod.fst := by
    rw [List.map_map]
    rfl
  have hb : assocBuild (es.map fun e => (e.fst, Serializer.toJson t e.snd)) =
      es.map fun e => (e.fst, Serializer.toJson t e.snd) :=
    assocBuild_eq_self _ (by rw [hkeys]; exact (distinctKeys_iff _).mp hnd)
  have henc : Serializer.toJson (.tMap t) (.dMap es) =
      .jObj (es.map fun e => (e.fst, Serializer.toJson t e.snd)) := by
    simp only [Serializer.toJson]
    rw [encodeEntries_eq_map, hb]
  refine ⟨?_, ?_, ?_⟩
  · rw [henc]
    simp [jvalToString]
  · rw [henc]
    simp only [JVal.toObject]
    exact hkeys
  · rw [henc]
    simp [JVal.toObject]

/-- Witness for C5 (amended): a two-entry String-keyed map encodes to a
two-entry Object with the same keys in order. -/
theorem c5_witness :
    distinctKeys (["a", "b"] : List String) = true ∧
    Serializer.toJson (.tMap .tStr) (.dMap [("a", .dStr "1"), ("b", .dStr "2")]) =
      .jObj [("a", .jStr "1"), ("b", .jStr "2")] ∧
    (Serializer.toJson (.tMap .tStr)
        (.dMap [("a", .dStr "1"), ("b", .dStr "2")])).toObject.map Prod.fst =
      ["a", "b"] ∧
    (Serializer.toJson (.tMap .tStr)
        (.dMap [("a", .dStr "1"), ("b", .dStr "2")])).toObject.length = 2 := by
  have h := c5_map_encode .tStr [("a", .dStr "1"), ("b", .dStr "2")] (by decide)
  refine ⟨by decide, ?_, ?_, ?_⟩
  · rw [h.1]
    rfl
  · rw [h.2.1]
    decide
  · rw [h.2.2]
    decide

/-- Counterexample for C1 as stated: a class whose property names collide
case-insensitively (`a` and `A`, both plain `QString` properties — an object
composed only of primitives) does not round-trip.  The case-insensitive key
scan lets the key `a` win for BOTH properties, so decoding the encoding of
`(a = "x", A = "y")` into a fresh object yields `(a = "x", A = "x")`. -/
theorem c1_counterexample :
    wt (.tClass [("a", .tStr), ("A", .tStr)]) (.dObj [.dStr "x", .dStr "y"]) = true ∧
    JsonSerializable.fromJson [("a", .tStr), ("A", .tStr)]
        (defaultFields [("a", .tStr), ("A", .tStr)])
        (.jObj (JsonSerializable.toJson [("a", .tStr), ("A", .tStr)]
          [.dStr "x", .dStr "y"])) = [.dStr "x", .dStr "x"] ∧
    ([JData.dStr "x", JData.dStr "x"] : List JData) ≠ [.dStr "x", .dStr "y"] := by
  refine ⟨by decide, ?_, by simp⟩
  have henc : JsonSerializable.toJson [("a", .tStr), ("A", .tStr)]
      [.dStr "x", .dStr "y"] = [("a", .jStr "x"), ("A", .jStr "y")] := rfl
  rw [henc]
  have hcia : ciEq "a" "a" = true := rfl
  have hciA : ciEq "a" "A" = true := rfl
  simp [JsonSerializable.fromJson, JVal.isObject, JVal.toObject, fromJsonProps,
    Serializer.fromJson, jvalToVariantString, List.find?, objValue, hcia, hciA,
    defaultFields, defaultData]

/-- C1 (amended): for every object composed only of primitives,
order-preserving sequence containers, String-keyed key-value containers and
nested declared objects (no cycles — the type universe `JType` is finite and
acyclic by construction), PROVIDED every class descriptor involved has
pairwise case-insensitively distinct property names (`ciOk`), applying the
member `fromJson` to the member `toJson` output on a freshly
default-constructed object of the same class yields the original object
field-by-field.  Without the case-insensitivity proviso the claim fails; see
the counterexample. -/
theorem c1_round_trip (ps : List (String × JType)) (fs : List JData)
    (hw : wt (.tClass ps) (.dObj fs) = true)
    (hci : ciOk (.tClass ps) = true) :
    JsonSerializable.fromJson ps (defaultFields ps)
      (.jObj (JsonSerializable.toJson ps fs)) = fs := by
  have h := roundtrip_data (.tClass ps) (.dObj fs) hw hci
  simp only [Serializer.toJson, Serializer.fromJson, JVal.toObject] at h
  rw [JData.dObj.injEq] at h
  simp only [JsonSerializable.fromJson, JsonSerializable.toJson, JVal.isObject,
    JVal.toObject, if_true]
  exact h

/-- Witness for C1 (amended): a five-property object — a string, a boolean, a
string list, a nested declared object and a String-keyed map — round-trips
through encode and decode on a fresh instance. -/
theorem c1_round_trip_witness :
    wt (.tClass [("name", .tStr), ("ok", .tBool), ("hobbies", .tList .tStr),
        ("page", .tClass [("title", .tStr)]), ("tags", .tMap .tStr)])
      (.dObj [.dStr "A", .dBool true, .dList [.dStr "running", .dStr "TV"],
        .dObj [.dStr "p1"], .dMap [("k1", .dStr "v1"), ("k2", .dStr "v2")]]) = true ∧
    ciOk (.tClass [("name", .tStr), ("ok", .tBool), ("hobbies", .tList .tStr),
        ("page", .tClass [("title", .tStr)]), ("tags", .tMap .tStr)]) = true ∧
    JsonSerializable.fromJson
        [("name", .tStr), ("ok", .tBool), ("hobbies", .tList .tStr),
          ("page", .tClass [("title", .tStr)]), ("tags", .tMap .tStr)]
        (defaultFields [("name", .tStr), ("ok", .tBool), ("hobbies", .tList .tStr),
          ("page", .tClass [("title", .tStr)]), ("tags", .tMap .tStr)])
        (.jObj (JsonSerializable.toJson
          [("name", .tStr), ("ok", .tBool), ("hobbies", .tList .tStr),
            ("page", .tClass [("title", .tStr)]), ("tags", .tMap .tStr)]
          [.dStr "A", .dBool true, .dList [.dStr "running", .dStr "TV"],
            .dObj [.dStr "p1"], .dMap [("k1", .dStr "v1"), ("k2", .dStr "v2")]])) =
      [.dStr "A", .dBool true, .dList [.dStr "running", .dStr "TV"],
        .dObj [.dStr "p1"], .dMap [("k1", .dStr "v1"), ("k2", .dStr "v2")]] :=
  ⟨by decide, by decide,
    c1_round_trip
      [("name", .tStr), ("ok", .tBool), ("hobbies", .tList .tStr),
        ("page", .tClass [("title", .tStr)]), ("tags", .tMap .tStr)]
      [.dStr "A", .dBool true, .dList [.dStr "running", .dStr "TV"],
        .dObj [.dStr "p1"], .dMap [("k1", .dStr "v1"), ("k2", .dStr "v2")]]
      (by decide) (by decide)⟩
